import Mathlib

/-
Verification of the N-dimensional Minesweeper engine (`src/mines/lab.py`).

The Python game state is a dictionary {dimensions, board, hidden, state};
boards are nested Python lists addressed by coordinate tuples.  We embed
nested lists as the rose tree `ND`, coordinates as `List Nat` (valid
coordinates have non-negative components), board cell values as `CellVal`
(the bomb marker `'.'` or a non-negative count), and the game dictionary as
the structure `GameState`.  Python code that raises (out-of-range indexing,
indexing a non-list) is embedded with `Option` where the raise can be
observed by a caller, and with an explicitly commented junk branch where the
claims restrict attention to inputs on which Python cannot raise.
-/

namespace Mines

/-- A board cell value: the bomb marker `'.'` or an adjacency count. -/
inductive CellVal where
  | bomb : CellVal
  | num : Nat → CellVal
deriving DecidableEq, Repr

/-- The `game['state']` field: one of `'ongoing'`, `'defeat'`, `'victory'`. -/
inductive Status where
  | ongoing : Status
  | defeat : Status
  | victory : Status
deriving DecidableEq, Repr

/-- A nested Python list: either a leaf value or a list of nested lists. -/
inductive ND (α : Type) where
  | cell : α → ND α
  | arr : List (ND α) → ND α

/-- The game dictionary {dimensions, board, hidden, state}. -/
structure GameState where
  dimensions : List Nat
  board : ND CellVal
  hidden : ND Bool
  state : Status

/-- `find_val(board, coordinate)`: descend one axis per coordinate component;
the empty coordinate addresses the array itself.  `none` embeds the Python
IndexError/TypeError raised on an out-of-range index or on indexing a leaf. -/
def find_val {α : Type} : ND α → List Nat → Option (ND α)
  | b, [] => some b
  | ND.arr xs, i :: rest =>
    match xs[i]? with
    | some x => find_val x rest
    | none => none
  | ND.cell _, _ :: _ => none

/-- Reading a full-depth coordinate with `find_val` and requiring a leaf, the
way every call site of the engine uses it. -/
def cellAt {α : Type} (b : ND α) (c : List Nat) : Option α :=
  match find_val b c with
  | some (ND.cell v) => some v
  | _ => none

/-- `replace(board, coordinate, value)`: descend to the addressed leaf and
overwrite it.  Python raises on an empty coordinate, an out-of-range index or
on indexing a leaf; those branches return the array unchanged and are
unreachable for the valid coordinates the claims quantify over. -/
def replace {α : Type} : ND α → List Nat → α → ND α
  | b, [], _ => b
  | ND.cell a, _ :: _, _ => ND.cell a
  | ND.arr xs, [i], v => ND.arr (xs.set i (ND.cell v))
  | ND.arr xs, i :: j :: rest, v =>
    match xs[i]? with
    | some x => ND.arr (xs.set i (replace x (j :: rest) v))
    | none => ND.arr xs

/-- `new_board(dimensions, value)`: nested lists shaped by `dimensions`, every
leaf holding `value`.  Python raises on an empty dimensions tuple; that branch
is junk and unreachable for the claims (which assume at least one axis). -/
def new_board {α : Type} (v : α) : List Nat → ND α
  | [] => ND.arr []
  | [d] => ND.arr (List.replicate d (ND.cell v))
  | d :: d2 :: ds => ND.arr (List.replicate d (new_board v (d2 :: ds)))

/-- `b` is a nested list exactly shaped by `ds` with leaves at full depth. -/
def hasShape {α : Type} : ND α → List Nat → Bool
  | ND.cell _, [] => true
  | ND.arr xs, d :: ds => xs.length == d && xs.all (fun x => hasShape x ds)
  | _, _ => false

/-- A coordinate is valid for `ds` when it has one component per axis, each
strictly below the axis bound. -/
def validCoordb : List Nat → List Nat → Bool
  | [], [] => true
  | d :: ds, x :: xs => decide (x < d) && validCoordb ds xs
  | _, _ => false

/-- Two equal-length coordinates differ by at most 1 on every axis. -/
def adjb : List Nat → List Nat → Bool
  | [], [] => true
  | x :: xs, y :: ys => decide (((x : Int) - (y : Int)).natAbs ≤ 1) && adjb xs ys
  | _, _ => false

/-- The Python loop `for i in range(coordinate[0]-1, coordinate[0]+2)` with
the bound checks `i < 0 or i >= dimensions[0]` applied: the in-range axis
indices among x-1, x, x+1, in that order. -/
def neighborRange (d x : Nat) : List Nat :=
  [(x : Int) - 1, (x : Int), (x : Int) + 1].filterMap (fun i =>
    if 0 ≤ i ∧ i < (d : Int) then some i.toNat else none)

/-- `get_neighbors(dimensions, coordinate)`: all in-bounds coordinates whose
components differ from `coordinate` by at most one per axis, the coordinate
itself included.  Python raises on an empty coordinate or empty dimensions;
the catch-all branch is junk, unreachable for the matched non-empty inputs
the claims quantify over. -/
def get_neighbors : List Nat → List Nat → List (List Nat)
  | d :: _, [x] => (neighborRange d x).map (fun i => [i])
  | d :: ds, x :: x2 :: xs =>
    (neighborRange d x).flatMap (fun i =>
      (get_neighbors ds (x2 :: xs)).map (fun n => i :: n))
  | _, _ => []

/-- `coords(dimensions)`: the generator enumerating every valid coordinate;
zero dimensions yield the single empty coordinate, otherwise each axis-0
index is prepended to every coordinate of the remaining axes. -/
def coords : List Nat → List (List Nat)
  | [] => [[]]
  | d :: ds => (List.range d).flatMap (fun i => (coords ds).map (fun c => i :: c))

/-- `get_coordinates(dimensions)`: the set-valued variant used by the
renderer.  Python raises on an empty dimensions tuple (`dimensions[0]`); the
`[]` branch returns the empty set and is unreachable for the non-empty
dimensions the claims quantify over. -/
def get_coordinates : List Nat → Finset (List Nat)
  | [] => ∅
  | [d] => (Finset.range d).image (fun x => [x])
  | d :: d2 :: ds =>
    (Finset.range d).biUnion (fun x =>
      (get_coordinates (d2 :: ds)).image (fun y => x :: y))

/-- The inner helper `zero(game, coordinates)` of `dig_nd`, with explicit
fuel.  Faithful to the source: a hidden cell (`hidden = True`) is counted as
1 and returned untouched; otherwise the cell — which was revealed — is set
back to `True`, and only when its board value is 0 does the fill recurse into
every neighbor, accumulating the recursive totals.  The Python recursion
terminates because each recursive descent first flips one revealed (`False`)
leaf back to `True`, so its depth never exceeds the number of revealed cells
plus one; `dig_nd` passes fuel exceeding that bound, making the `none` fuel
branch unreachable there.  `none` also embeds the IndexError of an invalid
coordinate. -/
def zero : Nat → GameState → List Nat → Option (GameState × Int)
  | 0, _, _ => none
  | fuel + 1, game, c =>
    match cellAt game.hidden c with
    | none => none
    | some true => some (game, 1)
    | some false =>
      let game1 : GameState := { game with hidden := replace game.hidden c true }
      match cellAt game1.board c with
      | none => none
      | some uncovered =>
        if uncovered = CellVal.num 0 then
          let neighbors := get_neighbors game1.dimensions c
          let game2 : GameState := { game1 with hidden := replace game1.hidden c true }
          neighbors.foldlM
            (fun (acc : GameState × Int) i =>
              (zero fuel acc.1 i).map (fun r => (r.1, acc.2 + r.2)))
            (game2, (0 : Int))
        else
          some (game1, 0)

/-- `dig_nd(game, coordinates)`.  Faithful to the source: the board value is
read first (raising on an invalid coordinate), a terminal game returns 0
unchanged, a bomb is revealed with state `'defeat'`, a 0 cell is revealed and
handed to `zero`, and a positive cell only re-assigns state `'ongoing'` and
returns 1.  The fuel passed to `zero` — cell count of the game shape plus
one — exceeds the depth bound of the Python recursion on any well-shaped
game, so the two agree there.  The Python `return val` fall-through line is
unreachable for cell values, which are `'.'` or a non-negative count. -/
def dig_nd (game : GameState) (coordinates : List Nat) : Option (GameState × Int) :=
  match cellAt game.board coordinates with
  | none => none
  | some val =>
    if game.state = Status.defeat ∨ game.state = Status.victory then
      some (game, 0)
    else
      match val with
      | CellVal.bomb =>
        some ({ game with
                  hidden := replace game.hidden coordinates false,
                  state := Status.defeat }, 1)
      | CellVal.num 0 =>
        let game1 : GameState :=
          { game with hidden := replace game.hidden coordinates false }
        zero ((coords game1.dimensions).length + 1) game1 coordinates
      | CellVal.num (_ + 1) =>
        some ({ game with state := Status.ongoing }, 1)

/-- The body of the neighbor loop of `new_game_nd`: a neighbor that is itself
a bomb is skipped, otherwise its current count is incremented.  Python would
raise adding 1 to `'.'` or reading a missing cell; those `_` branches return
the board unchanged and are unreachable (bomb cells are exactly the skipped
coordinates, and neighbors of valid coordinates are valid). -/
def bump_neighbor (bombs : List (List Nat)) (b : ND CellVal) (neighbor : List Nat) :
    ND CellVal :=
  if neighbor ∈ bombs then b
  else
    match cellAt b neighbor with
    | some (CellVal.num previous) => replace b neighbor (CellVal.num (previous + 1))
    | _ => b

/-- The body of the bomb loop of `new_game_nd`: mark the bomb cell with the
bomb marker, then bump every neighbor that is not itself a bomb. -/
def place_bomb (dims : List Nat) (bombs : List (List Nat)) (b : ND CellVal)
    (bomb_coords : List Nat) : ND CellVal :=
  let bomb_neighbors := get_neighbors dims bomb_coords
  let b := replace b bomb_coords CellVal.bomb
  bomb_neighbors.foldl (bump_neighbor bombs) b

/-- `new_game_nd(dimensions, bombs)`: a fresh all-zero board and all-hidden
visibility, then each bomb placed in turn, with state `'ongoing'`. -/
def new_game_nd (dims : List Nat) (bombs : List (List Nat)) : GameState :=
  let board := new_board (CellVal.num 0) dims
  let hidden := new_board true dims
  let board := bombs.foldl (place_bomb dims bombs) board
  { dimensions := dims, board := board, hidden := hidden, state := Status.ongoing }

/-- `str()` of a board cell value: the bomb marker renders as `"."`, a count
as its decimal digits. -/
def cellStr : CellVal → String
  | CellVal.bomb => "."
  | CellVal.num n => toString n

/-- One iteration of the `render_nd` loop at coordinate `i`: the stringified
board value is written into `final`, as `"_"` when the cell is hidden and
xray is off, as `" "` when the value is `"0"`.  The `none` fall-backs embed
the raise Python performs on a malformed game; they are unreachable for
well-shaped games. -/
def render_cell (game : GameState) (xray : Bool) (final : ND String)
    (i : List Nat) : ND String :=
  let value := match cellAt game.board i with
    | some v => cellStr v
    | none => ""
  if xray then
    if value = "0" then replace final i " " else replace final i value
  else
    match cellAt game.hidden i with
    | some true => replace final i "_"
    | _ => if value = "0" then replace final i " " else replace final i value

/-- `render_nd(game, xray)`.  Python iterates the set
`get_coordinates(dimensions)` in unspecified order; each iteration only
writes the fresh `final` array, so we thread the game state through the loop
explicitly (to make its preservation a theorem, not a typing accident) and
traverse the equivalent enumeration `coords(dimensions)` of the same
coordinate set. -/
def render_nd (game : GameState) (xray : Bool) : GameState × ND String :=
  let final := new_board "0" game.dimensions
  (coords game.dimensions).foldl
    (fun st i => (st.1, render_cell st.1 xray st.2 i))
    (game, final)

/-- `str()` of an entry of a board row, as mapped by `render_2d_locations`.
For the well-shaped 2D games the claims quantify over every entry is a leaf;
the `arr` branch (Python would stringify a nested list) is junk. -/
def strCell : ND CellVal → String
  | ND.cell v => cellStr v
  | ND.arr _ => ""

/-- The cell transform of the inner column loop of `render_2d_locations`. -/
def render_2d_cell (hidden : ND Bool) (xray : Bool) (row col : Nat) (s : String) :
    String :=
  if xray then
    if s = "0" then " " else s
  else
    match cellAt hidden [row, col] with
    | some true => "_"
    | _ => if s = "0" then " " else s

/-- One row of `render_2d_locations`: the row is stringified by
`list(map(str, board[row]))` — a fresh list, replacing the slot of the copied
outer list — and then each column below `dimensions[1]` is rewritten in
place.  An out-of-range column (Python IndexError) leaves the list unchanged
and is unreachable when the row has length `dimensions[1]`. -/
def render_2d_row (hidden : ND Bool) (xray : Bool) (d1 row : Nat)
    (r : ND CellVal) : List String :=
  let srow := (match r with | ND.arr cs => cs | ND.cell _ => []).map strCell
  (List.range d1).foldl
    (fun acc col =>
      match acc[col]? with
      | some s => acc.set col (render_2d_cell hidden xray row col s)
      | none => acc)
    srow

/-- `render_2d_locations(game, xray)`.  Python copies the outer list
(`game['board'][:]`), then replaces each row slot of the copy with a fresh
stringified list before mutating it, so no write ever reaches an object owned
by the game; we thread the game through the row loop explicitly and collect
the processed rows (for a well-shaped 2D game every row is processed exactly
once).  A missing row (Python IndexError) is embedded by the junk default. -/
def render_2d_locations (game : GameState) (xray : Bool) :
    GameState × List (List String) :=
  let rows := match game.board with | ND.arr rs => rs | ND.cell _ => []
  let d0 := game.dimensions.headD 0
  let d1 := (game.dimensions.drop 1).headD 0
  (List.range d0).foldl
    (fun st row =>
      (st.1, st.2 ++ [render_2d_row st.1.hidden xray d1 row (rows.getD row (ND.arr []))]))
    (game, ([] : List (List String)))

/-- `render_2d_board(game, xray)`: joins each rendered row into a line and
the lines with newlines.  It only reads the game (via `render_2d_locations`
and `game['dimensions']`); the game state is threaded through the loop as in
the other renderers.  A missing row (Python IndexError) is embedded by the
junk default, unreachable for well-shaped 2D games. -/
def render_2d_board (game : GameState) (xray : Bool) : GameState × String :=
  let p := render_2d_locations game xray
  let d := p.2
  let d0 := game.dimensions.headD 0
  (List.range d0).foldl
    (fun st row =>
      (st.1, st.2 ++ String.join (d.getD row []) ++
        (if row ≠ d0 - 1 then "\n" else "")))
    (p.1, "")

/-- The Victory condition of the specification: every non-bomb cell revealed
(`hidden = false`) and every bomb cell still hidden (`hidden = true`). -/
def victoryCondb (g : GameState) : Bool :=
  (coords g.dimensions).all (fun c =>
    match cellAt g.board c, cellAt g.hidden c with
    | some CellVal.bomb, some h => h
    | some (CellVal.num _), some h => !h
    | _, _ => false)

/-- The effect of one `bump_neighbor` hit on an observed cell value: a count
is incremented, anything else is left as it is (used only to state lemmas
about the bomb-placement folds). -/
def bumpVal : Option CellVal → Option CellVal
  | some (CellVal.num p) => some (CellVal.num (p + 1))
  | o => o

/-- The board of the 2x4 doctest game of `dig_2d` and `new_game_2d`:
bombs at (0,0), (1,0), (1,1). -/
def doctestBoard : ND CellVal :=
  ND.arr
    [ND.arr [ND.cell CellVal.bomb, ND.cell (CellVal.num 3),
             ND.cell (CellVal.num 1), ND.cell (CellVal.num 0)],
     ND.arr [ND.cell CellVal.bomb, ND.cell CellVal.bomb,
             ND.cell (CellVal.num 1), ND.cell (CellVal.num 0)]]

/-- The first doctest game of `dig_2d`: the doctest board with cell (0,1)
already revealed, state ongoing.  Its doctest digs (0,3) and expects the
right two columns revealed and state victory. -/
def doctestGame : GameState :=
  { dimensions := [2, 4]
    board := doctestBoard
    hidden := ND.arr
      [ND.arr [ND.cell true, ND.cell false, ND.cell true, ND.cell true],
       ND.arr [ND.cell true, ND.cell true, ND.cell true, ND.cell true]]
    state := Status.ongoing }

/-- The doctest board with cell (0,2) — a count-1 cell — already revealed. -/
def rehideGame : GameState :=
  { dimensions := [2, 4]
    board := doctestBoard
    hidden := ND.arr
      [ND.arr [ND.cell true, ND.cell true, ND.cell false, ND.cell true],
       ND.arr [ND.cell true, ND.cell true, ND.cell true, ND.cell true]]
    state := Status.ongoing }

/-- The state `dig_nd` actually produces from `rehideGame` at (0,3): every
cell hidden again, including the previously revealed (0,2). -/
def rehideGameAfter : GameState :=
  { dimensions := [2, 4]
    board := doctestBoard
    hidden := ND.arr
      [ND.arr [ND.cell true, ND.cell true, ND.cell true, ND.cell true],
       ND.arr [ND.cell true, ND.cell true, ND.cell true, ND.cell true]]
    state := Status.ongoing }

/-- A 1-D two-cell game — board `[1, '.']` — whose single safe cell is
already revealed, state ongoing. -/
def oneSafeRevealed : GameState :=
  { dimensions := [2]
    board := ND.arr [ND.cell (CellVal.num 1), ND.cell CellVal.bomb]
    hidden := ND.arr [ND.cell false, ND.cell true]
    state := Status.ongoing }

/-- A 1-D two-cell game — board `[1, '.']` — fully hidden, state ongoing. -/
def oneSafeHidden : GameState :=
  { dimensions := [2]
    board := ND.arr [ND.cell (CellVal.num 1), ND.cell CellVal.bomb]
    hidden := ND.arr [ND.cell true, ND.cell true]
    state := Status.ongoing }

end Mines

/-
Lemma layer: reading and writing well-shaped nested arrays.
-/

namespace Mines

lemma hasShape_cell_of_nil {α : Type} {b : ND α} (h : hasShape b [] = true) :
    ∃ a, b = ND.cell a := by
  cases b with
  | cell a => exact ⟨a, rfl⟩
  | arr xs => simp [hasShape] at h

lemma hasShape_arr_of_cons {α : Type} {b : ND α} {d : Nat} {ds : List Nat}
    (h : hasShape b (d :: ds) = true) :
    ∃ xs, b = ND.arr xs ∧ xs.length = d ∧ ∀ x ∈ xs, hasShape x ds = true := by
  cases b with
  | cell a => simp [hasShape] at h
  | arr xs =>
    simp only [hasShape, Bool.and_eq_true, beq_iff_eq, List.all_eq_true] at h
    exact ⟨xs, rfl, h.1, h.2⟩

lemma cellAt_arr_cons {α : Type} (l : List (ND α)) (i : Nat) (rest : List Nat) :
    cellAt (ND.arr l) (i :: rest) =
      match l[i]? with
      | some x => cellAt x rest
      | none => none := by
  cases h : l[i]? <;> simp [cellAt, find_val, h]

end Mines

namespace Mines

lemma validCoordb_nil_right {ds : List Nat} (h : validCoordb ds [] = true) :
    ds = [] := by
  cases ds with
  | nil => rfl
  | cons d ds => simp [validCoordb] at h

lemma validCoordb_cons_right {d : Nat} {ds xs : List Nat} {x : Nat}
    (h : validCoordb (d :: ds) (x :: xs) = true) :
    x < d ∧ validCoordb ds xs = true := by
  simpa [validCoordb] using h

lemma validCoordb_cons_left {ds c : List Nat} {x : Nat}
    (h : validCoordb ds (x :: c) = true) :
    ∃ d ds2, ds = d :: ds2 ∧ x < d ∧ validCoordb ds2 c = true := by
  cases ds with
  | nil => simp [validCoordb] at h
  | cons d ds2 =>
    obtain ⟨h1, h2⟩ := validCoordb_cons_right h
    exact ⟨d, ds2, rfl, h1, h2⟩

lemma cellAt_new_board {α : Type} (v : α) :
    ∀ ds c, ds ≠ [] → validCoordb ds c = true →
      cellAt (new_board v ds) c = some v
  | [], _, h, _ => absurd rfl h
  | [d], c, _, hv => by
    cases c with
    | nil => exact absurd (validCoordb_nil_right hv) (by simp)
    | cons x xs =>
      obtain ⟨hx, hxs⟩ := validCoordb_cons_right hv
      have hnil : xs = [] := by
        cases xs with
        | nil => rfl
        | cons y ys => simp [validCoordb] at hxs
      subst hnil
      simp [new_board, cellAt_arr_cons, List.getElem?_replicate, hx, cellAt, find_val]
  | d :: d2 :: ds2, c, _, hv => by
    cases c with
    | nil => exact absurd (validCoordb_nil_right hv) (by simp)
    | cons x xs =>
      obtain ⟨hx, hxs⟩ := validCoordb_cons_right hv
      have IH := cellAt_new_board v (d2 :: ds2) xs (by simp) hxs
      simp [new_board, cellAt_arr_cons, List.getElem?_replicate, hx, IH]

lemma hasShape_new_board {α : Type} (v : α) :
    ∀ ds, ds ≠ [] → hasShape (new_board v ds) ds = true
  | [], h => absurd rfl h
  | [d], _ => by
    simp [new_board, hasShape, List.all_eq_true]
  | d :: d2 :: ds2, _ => by
    have IH := hasShape_new_board v (d2 :: ds2) (by simp)
    simp [new_board, hasShape, List.all_eq_true]
    exact Or.inr IH

end Mines

namespace Mines

lemma hasShape_arr_intro {α : Type} {xs : List (ND α)} {d : Nat} {ds : List Nat}
    (hlen : xs.length = d) (hall : ∀ x ∈ xs, hasShape x ds = true) :
    hasShape (ND.arr xs) (d :: ds) = true := by
  simp only [hasShape, Bool.and_eq_true, beq_iff_eq, List.all_eq_true]
  exact ⟨hlen, hall⟩

lemma cellAt_replace_self {α : Type} (v : α) :
    ∀ c ds (b : ND α), hasShape b ds = true → validCoordb ds c = true → ds ≠ [] →
      cellAt (replace b c v) c = some v
  | [], _, _, _, hv, hds => absurd (validCoordb_nil_right hv) hds
  | [i], _, b, hs, hv, _ => by
    obtain ⟨d, ds2, rfl, hi, hrest⟩ := validCoordb_cons_left hv
    have hds2 : ds2 = [] := validCoordb_nil_right hrest
    subst hds2
    obtain ⟨xs, rfl, hlen, _⟩ := hasShape_arr_of_cons hs
    have hilen : i < xs.length := by omega
    simp [replace, cellAt_arr_cons, List.getElem?_set_self hilen, cellAt, find_val]
  | i :: j :: rest, _, b, hs, hv, _ => by
    obtain ⟨d, ds2, rfl, hi, hrest⟩ := validCoordb_cons_left hv
    obtain ⟨xs, rfl, hlen, hall⟩ := hasShape_arr_of_cons hs
    have hilen : i < xs.length := by omega
    have hget : xs[i]? = some xs[i] := List.getElem?_eq_getElem hilen
    have hds2 : ds2 ≠ [] := by
      obtain ⟨d2, ds3, rfl, _, _⟩ := validCoordb_cons_left hrest
      simp
    have IH := cellAt_replace_self v (j :: rest) ds2 xs[i]
      (hall _ (List.getElem_mem hilen)) hrest hds2
    simp [replace, hget, cellAt_arr_cons, List.getElem?_set_self hilen, IH]

lemma cellAt_replace_of_ne {α : Type} (v : α) :
    ∀ c c2 ds (b : ND α), hasShape b ds = true → validCoordb ds c = true →
      validCoordb ds c2 = true → c2 ≠ c →
      cellAt (replace b c v) c2 = cellAt b c2
  | [], _, _, _, _, _, _, _ => by simp [replace]
  | [i], c2, _, b, hs, hv, hv2, hne => by
    obtain ⟨d, ds2, rfl, hi, hrest⟩ := validCoordb_cons_left hv
    have hds2 : ds2 = [] := validCoordb_nil_right hrest
    subst hds2
    obtain ⟨xs, rfl, hlen, _⟩ := hasShape_arr_of_cons hs
    cases c2 with
    | nil =>
      have := validCoordb_nil_right hv2
      simp at this
    | cons i2 c2t =>
      obtain ⟨hi2, hrest2⟩ := validCoordb_cons_right hv2
      have hc2t : c2t = [] := by
        cases c2t with
        | nil => rfl
        | cons y ys => simp [validCoordb] at hrest2
      subst hc2t
      have hne2 : i ≠ i2 := by
        intro h
        exact hne (by rw [h])
      simp [replace, cellAt_arr_cons, List.getElem?_set_ne hne2]
  | i :: j :: rest, c2, _, b, hs, hv, hv2, hne => by
    obtain ⟨d, ds2, rfl, hi, hrest⟩ := validCoordb_cons_left hv
    obtain ⟨xs, rfl, hlen, hall⟩ := hasShape_arr_of_cons hs
    have hilen : i < xs.length := by omega
    have hget : xs[i]? = some xs[i] := List.getElem?_eq_getElem hilen
    cases c2 with
    | nil =>
      have := validCoordb_nil_right hv2
      simp at this
    | cons i2 c2t =>
      obtain ⟨hi2, hrest2⟩ := validCoordb_cons_right hv2
      by_cases hii : i2 = i
      · subst hii
        have hne2 : c2t ≠ j :: rest := by
          intro h
          exact hne (by rw [h])
        have IH := cellAt_replace_of_ne v (j :: rest) c2t ds2 xs[i2]
          (hall _ (List.getElem_mem hilen)) hrest hrest2 hne2
        simp [replace, hget, cellAt_arr_cons, List.getElem?_set_self hilen, IH]
      · have hii2 : i ≠ i2 := fun h => hii h.symm
        simp [replace, hget, cellAt_arr_cons, List.getElem?_set_ne hii2]

lemma hasShape_replace {α : Type} (v : α) :
    ∀ c ds (b : ND α), hasShape b ds = true → validCoordb ds c = true →
      hasShape (replace b c v) ds = true
  | [], _, b, hs, _ => by simpa [replace] using hs
  | [i], _, b, hs, hv => by
    obtain ⟨d, ds2, rfl, hi, hrest⟩ := validCoordb_cons_left hv
    have hds2 : ds2 = [] := validCoordb_nil_right hrest
    subst hds2
    obtain ⟨xs, rfl, hlen, hall⟩ := hasShape_arr_of_cons hs
    simp only [replace]
    apply hasShape_arr_intro
    · simp [List.length_set, hlen]
    · intro x hx
      rcases List.mem_or_eq_of_mem_set hx with h | h
      · exact hall _ h
      · subst h
        simp [hasShape]
  | i :: j :: rest, _, b, hs, hv => by
    obtain ⟨d, ds2, rfl, hi, hrest⟩ := validCoordb_cons_left hv
    obtain ⟨xs, rfl, hlen, hall⟩ := hasShape_arr_of_cons hs
    have hilen : i < xs.length := by omega
    have hget : xs[i]? = some xs[i] := List.getElem?_eq_getElem hilen
    have IH := hasShape_replace v (j :: rest) ds2 xs[i]
      (hall _ (List.getElem_mem hilen)) hrest
    simp only [replace, hget]
    apply hasShape_arr_intro
    · simp [List.length_set, hlen]
    · intro x hx
      rcases List.mem_or_eq_of_mem_set hx with h | h
      · exact hall _ h
      · subst h
        exact IH

lemma cellAt_isSome {α : Type} :
    ∀ c ds (b : ND α), hasShape b ds = true → validCoordb ds c = true →
      ∃ w, cellAt b c = some w
  | [], _, b, hs, hv => by
    have hds := validCoordb_nil_right hv
    subst hds
    obtain ⟨a, rfl⟩ := hasShape_cell_of_nil hs
    exact ⟨a, rfl⟩
  | i :: rest, _, b, hs, hv => by
    obtain ⟨d, ds2, rfl, hi, hrest⟩ := validCoordb_cons_left hv
    obtain ⟨xs, rfl, hlen, hall⟩ := hasShape_arr_of_cons hs
    have hilen : i < xs.length := by omega
    have hget : xs[i]? = some xs[i] := List.getElem?_eq_getElem hilen
    have IH := cellAt_isSome rest ds2 xs[i] (hall _ (List.getElem_mem hilen)) hrest
    simpa [cellAt_arr_cons, hget] using IH

end Mines

namespace Mines

lemma mem_neighborRange {d x y : Nat} :
    y ∈ neighborRange d x ↔ y < d ∧ ((x : Int) - (y : Int)).natAbs ≤ 1 := by
  simp only [neighborRange, List.mem_filterMap, List.mem_cons,
    List.mem_singleton, List.not_mem_nil, or_false]
  constructor
  · rintro ⟨i, hi, hf⟩
    split at hf
    · rename_i h
      obtain ⟨h0, hd⟩ := h
      have hy : i.toNat = y := by injection hf
      rcases hi with h1 | h1 | h1 <;> subst h1 <;> constructor <;> omega
    · exact absurd hf (by simp)
  · rintro ⟨hyd, hadj⟩
    refine ⟨(y : Int), ?_, ?_⟩
    · omega
    · rw [if_pos ⟨by omega, by omega⟩]
      simp

lemma nodup_neighborRange (d x : Nat) : (neighborRange d x).Nodup := by
  apply List.Nodup.filterMap
  · intro a b c hca hcb
    simp only [Option.mem_def] at hca hcb
    split at hca
    · split at hcb
      · rename_i ha hb
        have h1 : a.toNat = c := by injection hca
        have h2 : b.toNat = c := by injection hcb
        omega
      · exact absurd hcb (by simp)
    · exact absurd hca (by simp)
  · refine List.Pairwise.cons ?_ (List.Pairwise.cons ?_ (List.pairwise_singleton _ _))
    · intro b hb
      simp only [List.mem_cons, List.mem_singleton, List.not_mem_nil, or_false] at hb
      rcases hb with rfl | rfl <;> omega
    · intro b hb
      simp only [List.mem_singleton] at hb
      subst hb
      omega

lemma adjb_comm : ∀ a b, adjb a b = adjb b a
  | [], [] => rfl
  | [], _ :: _ => rfl
  | _ :: _, [] => rfl
  | x :: xs, y :: ys => by
    have h : ((x : Int) - (y : Int)).natAbs = ((y : Int) - (x : Int)).natAbs := by
      omega
    simp only [adjb, h, adjb_comm xs ys]

lemma mem_flatMap_cons {l : List Nat} {M : List (List Nat)} {y : List Nat} :
    y ∈ l.flatMap (fun i => M.map (fun n => i :: n)) ↔
      ∃ i, i ∈ l ∧ ∃ m, m ∈ M ∧ y = i :: m := by
  simp only [List.mem_flatMap, List.mem_map]
  constructor
  · rintro ⟨i, hi, m, hm, rfl⟩
    exact ⟨i, hi, m, hm, rfl⟩
  · rintro ⟨i, hi, m, hm, rfl⟩
    exact ⟨i, hi, m, hm, rfl⟩

lemma nodup_flatMap_cons {l : List Nat} {M : List (List Nat)}
    (hl : l.Nodup) (hM : M.Nodup) :
    (l.flatMap (fun i => M.map (fun n => i :: n))).Nodup := by
  induction l with
  | nil => simp
  | cons a l IH =>
    rw [List.nodup_cons] at hl
    rw [List.flatMap_cons, List.nodup_append]
    refine ⟨hM.map ?_, IH hl.2, ?_⟩
    · intro m1 m2 h
      injection h
    · intro y hy1 hy2
      obtain ⟨m, _, rfl⟩ := List.mem_map.mp hy1
      obtain ⟨i, hi, m2, _, heq⟩ := mem_flatMap_cons.mp hy2
      have : a = i := by injection heq
      exact hl.1 (this ▸ hi)

end Mines

namespace Mines

lemma mem_get_neighbors :
    ∀ c ds y, validCoordb ds c = true → c ≠ [] →
      (y ∈ get_neighbors ds c ↔ (validCoordb ds y = true ∧ adjb c y = true))
  | [], _, _, _, h => absurd rfl h
  | [x], _, y, hv, _ => by
    obtain ⟨d, ds2, rfl, hx, hrest⟩ := validCoordb_cons_left hv
    have hds2 : ds2 = [] := validCoordb_nil_right hrest
    subst hds2
    simp only [get_neighbors, List.mem_map]
    cases y with
    | nil => simp [validCoordb]
    | cons y0 yt =>
      cases yt with
      | nil =>
        have hRHS : (validCoordb [d] [y0] = true ∧ adjb [x] [y0] = true) ↔
            (y0 < d ∧ ((x : Int) - (y0 : Int)).natAbs ≤ 1) := by
          simp [validCoordb, adjb]
        rw [hRHS]
        constructor
        · rintro ⟨i, hi, heq⟩
          have h1 : i = y0 := by injection heq
          subst h1
          exact mem_neighborRange.mp hi
        · intro h
          exact ⟨y0, mem_neighborRange.mpr h, rfl⟩
      | cons y1 yt2 =>
        simp [validCoordb]
  | x :: x2 :: xs, _, y, hv, _ => by
    obtain ⟨d, ds2, rfl, hx, hrest⟩ := validCoordb_cons_left hv
    obtain ⟨d2, ds3, rfl, hx2, hrest2⟩ := validCoordb_cons_left hrest
    simp only [get_neighbors]
    rw [mem_flatMap_cons]
    cases y with
    | nil =>
      simp [validCoordb]
    | cons y0 yt =>
      have IH := mem_get_neighbors (x2 :: xs) (d2 :: ds3) yt hrest (by simp)
      constructor
      · rintro ⟨i, hi, m, hm, heq⟩
        have h1 : y0 = i := by injection heq
        have h2 : yt = m := by injection heq
        subst h1
        subst h2
        rw [mem_neighborRange] at hi
        obtain ⟨hvy, hay⟩ := IH.mp hm
        simp only [validCoordb, adjb, Bool.and_eq_true, decide_eq_true_eq]
        exact ⟨⟨hi.1, hvy⟩, hi.2, hay⟩
      · intro h
        simp only [validCoordb, adjb, Bool.and_eq_true, decide_eq_true_eq] at h
        obtain ⟨⟨h1, hvy⟩, h2, hay⟩ := h
        refine ⟨y0, ?_, yt, ?_, rfl⟩
        · rw [mem_neighborRange]
          exact ⟨h1, h2⟩
        · exact IH.mpr ⟨hvy, hay⟩

lemma nodup_get_neighbors : ∀ c ds, (get_neighbors ds c).Nodup
  | [], ds => by
    cases ds <;> simp [get_neighbors]
  | [x], ds => by
    cases ds with
    | nil => simp [get_neighbors]
    | cons d ds2 =>
      simp only [get_neighbors]
      exact (nodup_neighborRange d x).map (fun a b h => by injection h)
  | x :: x2 :: xs, ds => by
    cases ds with
    | nil => simp [get_neighbors]
    | cons d ds2 =>
      simp only [get_neighbors]
      exact nodup_flatMap_cons (nodup_neighborRange d x) (nodup_get_neighbors (x2 :: xs) ds2)

lemma mem_coords : ∀ ds c, c ∈ coords ds ↔ validCoordb ds c = true
  | [], c => by cases c <;> simp [coords, validCoordb]
  | d :: ds, c => by
    simp only [coords]
    rw [mem_flatMap_cons]
    cases c with
    | nil => simp [validCoordb]
    | cons x xs =>
      have IH := mem_coords ds xs
      constructor
      · rintro ⟨i, hi, m, hm, heq⟩
        have h1 : x = i := by injection heq
        have h2 : xs = m := by injection heq
        subst h1
        subst h2
        rw [List.mem_range] at hi
        simp only [validCoordb, Bool.and_eq_true, decide_eq_true_eq]
        exact ⟨hi, IH.mp hm⟩
      · intro h
        simp only [validCoordb, Bool.and_eq_true, decide_eq_true_eq] at h
        exact ⟨x, List.mem_range.mpr h.1, xs, IH.mpr h.2, rfl⟩

lemma nodup_coords : ∀ ds, (coords ds).Nodup
  | [] => by simp [coords]
  | d :: ds => by
    simp only [coords]
    exact nodup_flatMap_cons (List.nodup_range d) (nodup_coords ds)

lemma mem_get_coordinates :
    ∀ ds, ds ≠ [] → ∀ c, c ∈ get_coordinates ds ↔ validCoordb ds c = true
  | [], h, _ => absurd rfl h
  | [d], _, c => by
    simp only [get_coordinates, Finset.mem_image, Finset.mem_range]
    cases c with
    | nil => simp [validCoordb]
    | cons x xs =>
      cases xs with
      | nil =>
        have hRHS : validCoordb [d] [x] = true ↔ x < d := by
          simp [validCoordb]
        rw [hRHS]
        constructor
        · rintro ⟨i, hi, heq⟩
          have h1 : i = x := by injection heq
          subst h1
          exact hi
        · intro h
          exact ⟨x, h, rfl⟩
      | cons y ys => simp [validCoordb]
  | d :: d2 :: ds2, _, c => by
    simp only [get_coordinates, Finset.mem_biUnion, Finset.mem_image, Finset.mem_range]
    cases c with
    | nil => simp [validCoordb]
    | cons x xs =>
      have IH := mem_get_coordinates (d2 :: ds2) (by simp) xs
      constructor
      · rintro ⟨i, hi, m, hm, heq⟩
        have h1 : i = x := by injection heq
        have h2 : m = xs := by injection heq
        subst h1
        subst h2
        simp only [validCoordb, Bool.and_eq_true, decide_eq_true_eq]
        exact ⟨hi, IH.mp hm⟩
      · intro h
        simp only [validCoordb, Bool.and_eq_true, decide_eq_true_eq] at h
        exact ⟨x, h.1, xs, IH.mpr h.2, rfl⟩

end Mines

namespace Mines

lemma bump_neighbor_shape {bombs : List (List Nat)} {b : ND CellVal}
    {ds n : List Nat} (hs : hasShape b ds = true)
    (hn : validCoordb ds n = true) :
    hasShape (bump_neighbor bombs b n) ds = true := by
  unfold bump_neighbor
  split
  · exact hs
  · split
    · exact hasShape_replace _ _ _ _ hs hn
    · exact hs

lemma bump_neighbor_cellAt {bombs : List (List Nat)} {b : ND CellVal}
    {ds n c : List Nat} (hds : ds ≠ []) (hs : hasShape b ds = true)
    (hn : validCoordb ds n = true) (hc : validCoordb ds c = true) :
    cellAt (bump_neighbor bombs b n) c =
      if c = n ∧ c ∉ bombs then bumpVal (cellAt b c) else cellAt b c := by
  by_cases hmem : n ∈ bombs
  · have hcond : ¬(c = n ∧ c ∉ bombs) := by
      rintro ⟨rfl, hcb⟩
      exact hcb hmem
    simp [bump_neighbor, hmem, hcond]
  · cases hv : cellAt b n with
    | none =>
      have hcell : bump_neighbor bombs b n = b := by
        simp [bump_neighbor, hmem, hv]
      rw [hcell]
      split
      · rename_i h
        obtain ⟨rfl, _⟩ := h
        simp [hv, bumpVal]
      · rfl
    | some w =>
      cases w with
      | bomb =>
        have hcell : bump_neighbor bombs b n = b := by
          simp [bump_neighbor, hmem, hv]
        rw [hcell]
        split
        · rename_i h
          obtain ⟨rfl, _⟩ := h
          simp [hv, bumpVal]
        · rfl
      | num p =>
        have hcell : bump_neighbor bombs b n =
            replace b n (CellVal.num (p + 1)) := by
          simp [bump_neighbor, hmem, hv]
        rw [hcell]
        by_cases hcn : c = n
        · subst hcn
          rw [if_pos ⟨rfl, hmem⟩, cellAt_replace_self _ _ _ _ hs hc hds, hv]
          rfl
        · rw [if_neg (by rintro ⟨rfl, _⟩; exact hcn rfl),
            cellAt_replace_of_ne _ _ _ _ _ hs hn hc hcn]

lemma foldl_bump {bombs : List (List Nat)} {ds : List Nat} (hds : ds ≠ []) :
    ∀ (ns : List (List Nat)) (b : ND CellVal), ns.Nodup →
      (∀ n ∈ ns, validCoordb ds n = true) → hasShape b ds = true →
      hasShape (ns.foldl (bump_neighbor bombs) b) ds = true ∧
      ∀ c, validCoordb ds c = true →
        cellAt (ns.foldl (bump_neighbor bombs) b) c =
          if c ∈ ns ∧ c ∉ bombs then bumpVal (cellAt b c) else cellAt b c
  | [], b, _, _, hs => by
    refine ⟨hs, fun c hc => ?_⟩
    simp
  | n :: ns, b, hnd, hvn, hs => by
    rw [List.nodup_cons] at hnd
    have hvn0 : validCoordb ds n = true := hvn n (by simp)
    have hs1 : hasShape (bump_neighbor bombs b n) ds = true :=
      bump_neighbor_shape hs hvn0
    obtain ⟨hsf, hcf⟩ := foldl_bump hds ns (bump_neighbor bombs b n) hnd.2
      (fun m hm => hvn m (by simp [hm])) hs1
    refine ⟨hsf, fun c hc => ?_⟩
    rw [List.foldl_cons, hcf c hc, bump_neighbor_cellAt hds hs hvn0 hc]
    by_cases hcb : c ∈ bombs
    · simp [hcb]
    · by_cases hcn : c = n
      · subst hcn
        have hcns : c ∉ ns := hnd.1
        simp [hcns, hcb]
      · by_cases hcns : c ∈ ns
        · simp [hcns, hcb, hcn]
        · simp [hcns, hcb, hcn]

end Mines

namespace Mines

lemma place_bomb_eq (ds : List Nat) (bombs : List (List Nat)) (b : ND CellVal)
    (bc : List Nat) :
    place_bomb ds bombs b bc =
      (get_neighbors ds bc).foldl (bump_neighbor bombs) (replace b bc CellVal.bomb) := rfl

lemma countP_append_singleton (p : List Nat → Bool) (l : List (List Nat))
    (a : List Nat) :
    (l ++ [a]).countP p = l.countP p + (if p a = true then 1 else 0) := by
  rw [List.countP_append, List.countP_cons, List.countP_nil]
  omega

lemma foldl_place_bomb {ds : List Nat} (hds : ds ≠ []) {bombs : List (List Nat)}
    (hnd : bombs.Nodup) (hvb : ∀ b2 ∈ bombs, validCoordb ds b2 = true) :
    ∀ (rest done : List (List Nat)) (board : ND CellVal),
      bombs = done ++ rest →
      hasShape board ds = true →
      (∀ c, validCoordb ds c = true → c ∈ bombs →
        cellAt board c = some (if c ∈ done then CellVal.bomb else CellVal.num 0)) →
      (∀ c, validCoordb ds c = true → c ∉ bombs →
        cellAt board c = some (CellVal.num (done.countP (fun b2 => adjb c b2)))) →
      hasShape (rest.foldl (place_bomb ds bombs) board) ds = true ∧
      (∀ c, validCoordb ds c = true → c ∈ bombs →
        cellAt (rest.foldl (place_bomb ds bombs) board) c =
          some (if c ∈ done ++ rest then CellVal.bomb else CellVal.num 0)) ∧
      (∀ c, validCoordb ds c = true → c ∉ bombs →
        cellAt (rest.foldl (place_bomb ds bombs) board) c =
          some (CellVal.num ((done ++ rest).countP (fun b2 => adjb c b2))))
  | [], done, board, heq, hs, hin, hout => by
    refine ⟨hs, ?_, ?_⟩
    · simpa using hin
    · simpa using hout
  | b0 :: rest, done, board, heq, hs, hin, hout => by
    have hb0 : b0 ∈ bombs := by
      rw [heq]
      simp
    have hvb0 : validCoordb ds b0 = true := hvb b0 hb0
    have hb0ne : b0 ≠ [] := by
      intro h
      subst h
      exact hds (validCoordb_nil_right hvb0)
    have hb0done : b0 ∉ done := by
      intro h
      have := heq ▸ hnd
      rw [List.nodup_append] at this
      exact this.2.2 h (by simp)
    have hsr : hasShape (replace board b0 CellVal.bomb) ds = true :=
      hasShape_replace _ _ _ _ hs hvb0
    have hnsnd : (get_neighbors ds b0).Nodup := nodup_get_neighbors b0 ds
    have hnsv : ∀ n ∈ get_neighbors ds b0, validCoordb ds n = true := by
      intro n hn
      exact ((mem_get_neighbors b0 ds n hvb0 hb0ne).mp hn).1
    obtain ⟨hs1, hc1⟩ := foldl_bump hds (get_neighbors ds b0)
      (replace board b0 CellVal.bomb) hnsnd hnsv hsr
    rw [List.foldl_cons, place_bomb_eq]
    have hin1 : ∀ c, validCoordb ds c = true → c ∈ bombs →
        cellAt ((get_neighbors ds b0).foldl (bump_neighbor bombs)
          (replace board b0 CellVal.bomb)) c =
          some (if c ∈ done ++ [b0] then CellVal.bomb else CellVal.num 0) := by
      intro c hc hcb
      rw [hc1 c hc, if_neg (by rintro ⟨_, h⟩; exact h hcb)]
      by_cases hcb0 : c = b0
      · subst hcb0
        rw [cellAt_replace_self _ _ _ _ hs hc hds]
        simp
      · rw [cellAt_replace_of_ne _ _ _ _ _ hs hvb0 hc hcb0, hin c hc hcb]
        exact congrArg some
          (if_congr (by simp [List.mem_append, hcb0]) rfl rfl).symm
    have hout1 : ∀ c, validCoordb ds c = true → c ∉ bombs →
        cellAt ((get_neighbors ds b0).foldl (bump_neighbor bombs)
          (replace board b0 CellVal.bomb)) c =
          some (CellVal.num ((done ++ [b0]).countP (fun b2 => adjb c b2))) := by
      intro c hc hcb
      have hcb0 : c ≠ b0 := by
        intro h
        exact hcb (h ▸ hb0)
      have hbase : cellAt (replace board b0 CellVal.bomb) c =
          some (CellVal.num (done.countP (fun b2 => adjb c b2))) := by
        rw [cellAt_replace_of_ne _ _ _ _ _ hs hvb0 hc hcb0]
        exact hout c hc hcb
      rw [hc1 c hc, countP_append_singleton]
      by_cases hcn : c ∈ get_neighbors ds b0
      · have hadj : adjb b0 c = true := ((mem_get_neighbors b0 ds c hvb0 hb0ne).mp hcn).2
        rw [if_pos ⟨hcn, hcb⟩, hbase]
        simp [bumpVal, adjb_comm c b0, hadj]
      · have hadj : adjb c b0 = false := by
          by_contra h
          have h2 : adjb b0 c = true := by
            rw [adjb_comm]
            simpa using h
          exact hcn ((mem_get_neighbors b0 ds c hvb0 hb0ne).mpr ⟨hc, h2⟩)
        rw [if_neg (by rintro ⟨h, _⟩; exact hcn h), hbase]
        simp [hadj]
    have heq1 : bombs = (done ++ [b0]) ++ rest := by
      rw [heq]
      simp
    obtain ⟨hsf, hinf, houtf⟩ := foldl_place_bomb hds hnd hvb rest (done ++ [b0])
      ((get_neighbors ds b0).foldl (bump_neighbor bombs)
        (replace board b0 CellVal.bomb)) heq1 hs1 hin1 hout1
    refine ⟨hsf, ?_, ?_⟩
    · intro c hc hcb
      rw [hinf c hc hcb]
      refine congrArg some (if_congr ?_ rfl rfl)
      simp [List.mem_append, or_assoc]
    · intro c hc hcb
      rw [houtf c hc hcb, List.append_assoc]
      rfl

end Mines

namespace Mines

lemma adjb_self : ∀ c, adjb c c = true
  | [] => rfl
  | x :: xs => by
    simp only [adjb, adjb_self xs, Bool.and_true, decide_eq_true_eq]
    omega

lemma foldl_pres_fst {β γ : Type} (step : GameState × β → γ → β) :
    ∀ (l : List γ) (g : GameState) (b : β),
      (l.foldl (fun st i => (st.1, step st i)) (g, b)).1 = g
  | [], _, _ => rfl
  | i :: l, g, b => foldl_pres_fst step l g (step (g, b) i)

end Mines

/-
Claim theorems.
-/

namespace Mines

/-- C1: the claim says a Dig at an ongoing game on a 0-valued cell reveals
(sets Visibility false) the dug cell and the flood-fill region and returns
the number of cells flipped from hidden to revealed.  The code refutes it:
on the doctest game, digging the 0-valued cell (0,3) returns the game with
its hidden array completely unchanged — the dug cell is first revealed and
then re-hidden by `zero` — while returning 4, the number of still-hidden
neighbors the aborted fill merely looked at. -/
theorem C1_flood_fill_reveals_nothing :
    cellAt doctestGame.board [0, 3] = some (CellVal.num 0) ∧
    doctestGame.state = Status.ongoing ∧
    dig_nd doctestGame [0, 3] = some (doctestGame, 4) ∧
    cellAt doctestGame.hidden [0, 3] = some true :=
  ⟨rfl, rfl, rfl, rfl⟩

/-- C2: the claim says Visibility is monotone — once false, never true again.
The code refutes it: on the doctest board with cell (0,2) already revealed,
digging the 0-valued cell (0,3) re-hides (0,2), flipping its Visibility from
false back to true. -/
theorem C2_dig_rehides_revealed_cell :
    cellAt rehideGame.hidden [0, 2] = some false ∧
    dig_nd rehideGame [0, 3] = some (rehideGameAfter, 3) ∧
    cellAt rehideGameAfter.hidden [0, 2] = some true :=
  ⟨rfl, rfl, rfl⟩

/-- C3: the claim says that after a Dig on an ongoing game, Status is Victory
exactly when every non-bomb cell is revealed and every bomb cell hidden.  The
code refutes it: it never assigns the victory state at all.  Digging the
already-revealed count-1 cell of `oneSafeRevealed` produces a state that
satisfies the victory condition, yet its Status is still Ongoing. -/
theorem C3_victory_never_assigned :
    oneSafeRevealed.state = Status.ongoing ∧
    dig_nd oneSafeRevealed [0] = some (oneSafeRevealed, 1) ∧
    victoryCondb oneSafeRevealed = true ∧
    oneSafeRevealed.state ≠ Status.victory :=
  ⟨rfl, rfl, rfl, by decide⟩

/-- C4: the claim says a Dig at an ongoing game on a positive-valued cell
sets that cell's Visibility to false, recomputes Status and returns 1.  The
code refutes the reveal: digging the hidden count-1 cell of `oneSafeHidden`
returns 1 but leaves the game unchanged — the cell's Visibility stays true
(the branch only re-assigns state ongoing). -/
theorem C4_positive_dig_does_not_reveal :
    cellAt oneSafeHidden.board [0] = some (CellVal.num 1) ∧
    oneSafeHidden.state = Status.ongoing ∧
    dig_nd oneSafeHidden [0] = some (oneSafeHidden, 1) ∧
    cellAt oneSafeHidden.hidden [0] = some true :=
  ⟨rfl, rfl, rfl, rfl⟩

/-- C5: on a terminal game (Defeat or Victory), Dig at any valid coordinate
returns 0 and leaves the game — board, visibility, status, dimensions —
completely unchanged. -/
theorem C5_dig_terminal_noop (g : GameState) (c : List Nat)
    (hs : hasShape g.board g.dimensions = true)
    (hds : g.dimensions ≠ [])
    (hc : validCoordb g.dimensions c = true)
    (hterm : g.state = Status.defeat ∨ g.state = Status.victory) :
    dig_nd g c = some (g, 0) := by
  obtain ⟨v, hv⟩ := cellAt_isSome c g.dimensions g.board hs hc
  simp only [dig_nd, hv]
  rw [if_pos hterm]

/-- Witness for C5 at a concrete defeated game. -/
theorem C5_witness :
    dig_nd { oneSafeHidden with state := Status.defeat } [0] =
      some ({ oneSafeHidden with state := Status.defeat }, 0) :=
  C5_dig_terminal_noop { oneSafeHidden with state := Status.defeat } [0]
    (by decide) (by decide) (by decide) (Or.inl rfl)

/-- C6: on an ongoing game, Dig at a valid bomb cell reveals exactly that
cell, sets Status to Defeat, returns 1, and changes nothing else — board and
dimensions are untouched and every other cell's visibility is preserved. -/
theorem C6_dig_bomb (g : GameState) (c : List Nat)
    (hsb : hasShape g.board g.dimensions = true)
    (hsh : hasShape g.hidden g.dimensions = true)
    (hds : g.dimensions ≠ [])
    (hc : validCoordb g.dimensions c = true)
    (hstate : g.state = Status.ongoing)
    (hbomb : cellAt g.board c = some CellVal.bomb) :
    ∃ g2, dig_nd g c = some (g2, 1) ∧
      g2.board = g.board ∧ g2.dimensions = g.dimensions ∧
      g2.state = Status.defeat ∧
      cellAt g2.hidden c = some false ∧
      ∀ c2, validCoordb g.dimensions c2 = true → c2 ≠ c →
        cellAt g2.hidden c2 = cellAt g.hidden c2 := by
  refine ⟨{ g with hidden := replace g.hidden c false, state := Status.defeat },
    ?_, rfl, rfl, rfl, ?_, ?_⟩
  · simp only [dig_nd, hbomb]
    rw [if_neg (by simp [hstate])]
  · exact cellAt_replace_self false c g.dimensions g.hidden hsh hc hds
  · intro c2 hc2 hne
    exact cellAt_replace_of_ne false c c2 g.dimensions g.hidden hsh hc hc2 hne

/-- Witness for C6 at the concrete bomb cell of `oneSafeHidden`. -/
theorem C6_witness :
    ∃ g2, dig_nd oneSafeHidden [1] = some (g2, 1) ∧
      g2.board = oneSafeHidden.board ∧
      g2.dimensions = oneSafeHidden.dimensions ∧
      g2.state = Status.defeat ∧
      cellAt g2.hidden [1] = some false ∧
      ∀ c2, validCoordb oneSafeHidden.dimensions c2 = true → c2 ≠ [1] →
        cellAt g2.hidden c2 = cellAt oneSafeHidden.hidden c2 :=
  C6_dig_bomb oneSafeHidden [1] (by decide) (by decide) (by decide) (by decide)
    rfl (by decide)

/-- C7: `new_game_nd` over any non-empty dimensions and duplicate-free valid
bombs yields state Ongoing, everything hidden, the bomb marker at every bomb
cell, and at every non-bomb cell the number of bombs among its neighbors
(the cell itself, included in neighbor generation, is not a bomb and so never
counted). -/
theorem C7_new_game_nd_correct (ds : List Nat) (bombs : List (List Nat))
    (hds : ds ≠ []) (hnd : bombs.Nodup)
    (hvb : ∀ b2 ∈ bombs, validCoordb ds b2 = true) :
    (new_game_nd ds bombs).dimensions = ds ∧
    (new_game_nd ds bombs).state = Status.ongoing ∧
    (∀ c, validCoordb ds c = true →
      cellAt (new_game_nd ds bombs).hidden c = some true) ∧
    (∀ b2 ∈ bombs, cellAt (new_game_nd ds bombs).board b2 = some CellVal.bomb) ∧
    (∀ c, validCoordb ds c = true → c ∉ bombs →
      cellAt (new_game_nd ds bombs).board c =
        some (CellVal.num (bombs.countP (fun b2 => adjb c b2)))) := by
  have hbase_in : ∀ c, validCoordb ds c = true → c ∈ bombs →
      cellAt (new_board (CellVal.num 0) ds) c =
        some (if c ∈ ([] : List (List Nat)) then CellVal.bomb else CellVal.num 0) := by
    intro c hc _
    simpa using cellAt_new_board _ ds c hds hc
  have hbase_out : ∀ c, validCoordb ds c = true → c ∉ bombs →
      cellAt (new_board (CellVal.num 0) ds) c =
        some (CellVal.num (List.countP (fun b2 => adjb c b2) [])) := by
    intro c hc _
    simpa using cellAt_new_board _ ds c hds hc
  obtain ⟨_, hin, hout⟩ := foldl_place_bomb hds hnd hvb bombs []
    (new_board (CellVal.num 0) ds) (by simp) (hasShape_new_board _ ds hds)
    hbase_in hbase_out
  refine ⟨rfl, rfl, ?_, ?_, ?_⟩
  · intro c hc
    exact cellAt_new_board true ds c hds hc
  · intro b2 hb2
    have h := hin b2 (hvb b2 hb2) hb2
    simpa [hb2] using h
  · intro c hc hcb
    have h := hout c hc hcb
    simpa using h

/-- Witness for C7 on the 2x4 doctest bombs: cell (0,1) counts 3 adjacent
bombs and cell (0,0) holds the bomb marker. -/
theorem C7_witness :
    cellAt (new_game_nd [2, 4] [[0, 0], [1, 0], [1, 1]]).board [0, 1] =
      some (CellVal.num
        (List.countP (fun b2 => adjb [0, 1] b2) [[0, 0], [1, 0], [1, 1]])) ∧
    cellAt (new_game_nd [2, 4] [[0, 0], [1, 0], [1, 1]]).board [0, 0] =
      some CellVal.bomb :=
  ⟨(C7_new_game_nd_correct [2, 4] [[0, 0], [1, 0], [1, 1]] (by decide) (by decide)
      (by decide)).2.2.2.2 [0, 1] (by decide) (by decide),
   (C7_new_game_nd_correct [2, 4] [[0, 0], [1, 0], [1, 1]] (by decide) (by decide)
      (by decide)).2.2.2.1 [0, 0] (by decide)⟩

/-- C8: for non-empty dimensions and a valid coordinate, `get_neighbors`
yields exactly the in-bounds coordinates differing by at most 1 on every
axis — the coordinate itself included — each exactly once. -/
theorem C8_get_neighbors_correct (ds c : List Nat) (hds : ds ≠ [])
    (hc : validCoordb ds c = true) :
    (get_neighbors ds c).Nodup ∧
    (∀ y, y ∈ get_neighbors ds c ↔
      (validCoordb ds y = true ∧ adjb c y = true)) ∧
    c ∈ get_neighbors ds c := by
  have hcne : c ≠ [] := fun h => hds (validCoordb_nil_right (h ▸ hc))
  refine ⟨nodup_get_neighbors c ds, fun y => mem_get_neighbors c ds y hc hcne, ?_⟩
  exact (mem_get_neighbors c ds c hc hcne).mpr ⟨hc, adjb_self c⟩

/-- Witness for C8 at dimensions (2,4), coordinate (0,3). -/
theorem C8_witness :
    (get_neighbors [2, 4] [0, 3]).Nodup ∧
    ([0, 2] ∈ get_neighbors [2, 4] [0, 3] ↔
      (validCoordb [2, 4] [0, 2] = true ∧ adjb [0, 3] [0, 2] = true)) ∧
    [0, 3] ∈ get_neighbors [2, 4] [0, 3] :=
  ⟨(C8_get_neighbors_correct [2, 4] [0, 3] (by decide) (by decide)).1,
   (C8_get_neighbors_correct [2, 4] [0, 3] (by decide) (by decide)).2.1 [0, 2],
   (C8_get_neighbors_correct [2, 4] [0, 3] (by decide) (by decide)).2.2⟩

/-- C9: the coordinate enumeration produces every valid coordinate exactly
once; zero dimensions give exactly the single empty coordinate, and a
non-empty shape is enumerated by prepending each axis-0 index to the
coordinates of the remaining axes; the set-valued `get_coordinates` used by
the renderer agrees on every non-empty shape. -/
theorem C9_coordinates_correct :
    (∀ ds, (coords ds).Nodup ∧ ∀ c, (c ∈ coords ds ↔ validCoordb ds c = true)) ∧
    coords [] = [[]] ∧
    (∀ d ds, coords (d :: ds) =
      (List.range d).flatMap (fun i => (coords ds).map (fun c => i :: c))) ∧
    (∀ ds, ds ≠ [] → ∀ c, (c ∈ get_coordinates ds ↔ validCoordb ds c = true)) :=
  ⟨fun ds => ⟨nodup_coords ds, fun c => mem_coords ds c⟩, rfl,
   fun _ _ => rfl, mem_get_coordinates⟩

/-- Witness for C9 at dimensions (2,): the valid coordinate (1,) lies in the
renderer's coordinate set, and the enumeration of (2,4) is duplicate-free. -/
theorem C9_witness :
    [1] ∈ get_coordinates [2] ∧ (coords [2, 4]).Nodup :=
  ⟨(C9_coordinates_correct.2.2.2 [2] (by decide) [1]).mpr (by decide),
   (C9_coordinates_correct.1 [2, 4]).1⟩

/-- C10: rendering never mutates the game: the N-dimensional renderer and
both 2D render variants, threaded through their loops, return the game state
component unchanged for every game and both xray modes. -/
theorem C10_render_preserves_game (g : GameState) (x : Bool) :
    (render_nd g x).1 = g ∧ (render_2d_locations g x).1 = g ∧
      (render_2d_board g x).1 = g := by
  have h2 : (render_2d_locations g x).1 = g := foldl_pres_fst _ _ _ _
  refine ⟨foldl_pres_fst _ _ _ _, h2, ?_⟩
  have h3 : (render_2d_board g x).1 = (render_2d_locations g x).1 :=
    foldl_pres_fst _ _ _ _
  exact h3.trans h2

end Mines
